import Mathlib

/-!
Verification of the Huffman compressor/decompressor in `hzip.py`.

The development shallowly embeds the algorithmic core of the program:

* `PyNode` models the Python `Node` class, where the `None` reference is the
  constructor `PyNode.null` and a node carries `char : Option Nat`
  (`some c` on a leaf, `none` on an internal node), a `freq : Nat`, and
  two (possibly `null`) children.
* The `heapq` operations used by `_build_huffman_tree` (`heappush`,
  `heappop` with `_siftdown` / `_siftup`) are embedded exactly, as pure
  functions on `List α` with Python's index arithmetic.  Their `while`
  loops are written with an explicit fuel argument so every definition is
  structurally recursive (hence kernel-computable); the chosen fuels are
  provable upper bounds on the iteration counts (`_siftdown` strictly
  decreases `pos`, so `pos` steps suffice; `_siftup` strictly increases
  `pos` below the length, so `length` steps suffice; the merge loop
  shrinks the heap by one element per iteration), and the fuel-exhausted
  branch coincides with the loop-exit action, so the embedding agrees
  with the unbounded loop on every reachable input.
* A dict is embedded as an association list in insertion order
  (`Counter` preserves first-occurrence order; the code table is produced
  by the depth-first traversal).  Keys are distinct in every run of the
  program, so `List.lookup` is exact.
* Bit strings of `'0'`/`'1'` characters are `List Bool` (`false` = `'0'`).
* `pickle.dumps`/`pickle.loads` of the serialized-tree tuples is an
  external library round trip; the container therefore carries the tuple
  structure `SerTree` directly (the uninterpreted `tree_size` byte count
  of the pickle blob is not modelled).  Payload bytes are produced by
  `int(chunk, 2)` on chunks of at most 8 bits and are therefore `< 256`,
  matching the fixed 8-bit width of `format(byte, '08b')` on decode.
* `compress` returning `False` after printing the empty-input message,
  the magic-tag failure in `decompress`, and any exception caught by the
  surrounding `try`/`except` blocks are the three failure outcomes,
  modelled as `Except HErr`.
-/

namespace Hzip

open scoped List

/-- Python error outcomes of `compress`/`decompress`: the explicit
empty-input rejection, the explicit magic-tag rejection, and any raised
exception caught by the enclosing `try`/`except` (KeyError on a missing
code-table entry, AttributeError on a `None` dereference, ...). -/
inductive HErr where
  | emptyInput
  | formatMismatch
  | runtimeError
  deriving DecidableEq, Repr

/-- The Python `Node` object graph: `null` is the `None` reference;
`node char freq left right` is `Node(char, freq, left, right)` with
`char = some c` exactly on leaves. -/
inductive PyNode where
  | null : PyNode
  | node (char : Option Nat) (freq : Nat) (left right : PyNode) : PyNode
  deriving DecidableEq, Repr

/-- `self.freq`; heap elements are never `None`, so the value on `null`
is irrelevant. -/
def PyNode.freq : PyNode → Nat
  | .null => 0
  | .node _ f _ _ => f

/-- `Node.__lt__`: comparison by frequency only. -/
def nodeLt (a b : PyNode) : Bool := a.freq < b.freq

/-! ## The `heapq` embedding

Python's `heapq.heappush` / `heapq.heappop` on a list, using only `<` on
elements, translated index-for-index.  `d` is the out-of-bounds default
of `getD`; all accesses are in bounds on every reachable input. -/

section Heapq

variable {α : Type} (lt : α → α → Bool) (d : α)

/-- `heapq._siftdown(heap, startpos, pos)` after reading
`newitem = heap[pos]`: bubble `newitem` up while it is smaller than its
parent.  `pos` strictly decreases, so fuel `pos` is enough; the fuel-0
branch equals the loop-exit action. -/
def siftdownGo (startpos : Nat) (newitem : α) : Nat → List α → Nat → List α
  | 0, heap, pos => heap.set pos newitem
  | fuel + 1, heap, pos =>
    if startpos < pos then
      let parentpos := (pos - 1) / 2
      let parent := heap.getD parentpos d
      if lt newitem parent then
        siftdownGo startpos newitem fuel (heap.set pos parent) parentpos
      else
        heap.set pos newitem
    else
      heap.set pos newitem

/-- `heapq._siftdown(heap, startpos, pos)`. -/
def siftdown (heap : List α) (startpos pos : Nat) : List α :=
  siftdownGo lt d startpos (heap.getD pos d) pos heap pos

/-- `heapq._siftup(heap, pos)` after reading `newitem = heap[pos]`:
move the smaller child up until a childless position is reached, then
place `newitem` there and sift it down.  `pos` strictly increases and
stays below the (constant) length, so fuel `heap.length` is enough; the
fuel-0 branch equals the loop-exit action. -/
def siftupGo (startpos : Nat) (newitem : α) : Nat → List α → Nat → List α
  | 0, heap, pos => siftdown lt d (heap.set pos newitem) startpos pos
  | fuel + 1, heap, pos =>
    let endpos := heap.length
    let childpos := 2 * pos + 1
    if childpos < endpos then
      let rightpos := childpos + 1
      let childpos :=
        if rightpos < endpos ∧ ¬ lt (heap.getD childpos d) (heap.getD rightpos d) then
          rightpos
        else
          childpos
      siftupGo startpos newitem fuel (heap.set pos (heap.getD childpos d)) childpos
    else
      siftdown lt d (heap.set pos newitem) startpos pos

/-- `heapq._siftup(heap, pos)` (always called with `pos = 0`). -/
def siftup (heap : List α) (pos : Nat) : List α :=
  siftupGo lt d pos (heap.getD pos d) heap.length heap pos

/-- `heapq.heappush(heap, item)`: append, then sift the new last element
down towards the root. -/
def heappush (heap : List α) (item : α) : List α :=
  let h := heap ++ [item]
  siftdown lt d h 0 (h.length - 1)

/-- `heapq.heappop(heap)`: pop the last element; if the heap is still
nonempty, take the root as result, move the last element to the root and
sift it up.  Returns `none` on the empty heap (Python raises). -/
def heappop (heap : List α) : Option (α × List α) :=
  match heap with
  | [] => none
  | _ :: _ =>
    let lastelt := heap.getLastD d
    let rest := heap.dropLast
    match rest with
    | [] => some (lastelt, [])
    | _ :: _ => some (rest.getD 0 d, siftup lt d (rest.set 0 lastelt) 0)

end Heapq

/-! ## Frequency table, tree construction, code table -/

/-- The distinct values of a list in first-occurrence order: the key
order of `Counter(data)` (a `dict` preserves insertion order). -/
def firstOccs : List Nat → List Nat
  | [] => []
  | c :: rest => c :: (firstOccs rest).filter (· ≠ c)

/-- `_build_frequency_table(data) = Counter(data)`: each distinct byte
value, in first-occurrence order, mapped to its number of occurrences. -/
def buildFrequencyTable (data : List Nat) : List (Nat × Nat) :=
  (firstOccs data).map fun c => (c, data.count c)

/-- The default `PyNode` handed to `getD`; never read on reachable
inputs. -/
def dNode : PyNode := .null

/-- The loop `while len(heap) > 1: merge the two smallest`, returning
`heap[0]`.  The heap shrinks by one element per iteration, so fuel
`heap.length` is enough; the fuel-0 branch equals the loop-exit action,
and the `none` branches of the two pops are unreachable (Python would
raise on an empty pop). -/
def mergeLoop : Nat → List PyNode → PyNode
  | 0, heap => heap.getD 0 dNode
  | fuel + 1, heap =>
    if 1 < heap.length then
      match heappop nodeLt dNode heap with
      | some (left, h1) =>
        match heappop nodeLt dNode h1 with
        | some (right, h2) =>
          mergeLoop fuel (heappush nodeLt dNode h2 (.node none (left.freq + right.freq) left right))
        | none => dNode
      | none => dNode
    else heap.getD 0 dNode

/-- `_build_huffman_tree(freq_table)`: push a leaf per table entry, then
either wrap the single leaf in an internal root (one distinct value) or
run the merge loop. -/
def buildHuffmanTree (freqTable : List (Nat × Nat)) : PyNode :=
  match freqTable with
  | [] => .null
  | _ :: _ =>
    let heap := freqTable.foldl
      (fun h cf => heappush nodeLt dNode h (.node (some cf.1) cf.2 .null .null)) []
    if heap.length = 1 then
      .node none (heap.getD 0 dNode).freq
        (match heappop nodeLt dNode heap with
         | some (leaf, _) => leaf
         | none => dNode)
        .null
    else
      mergeLoop heap.length heap

/-- The inner `dfs(node, code)` of `_build_codes`, returning the
`(char, code)` pairs in traversal (= dict insertion) order.  A leaf with
the empty accumulated code records `"0"` instead.  Python guards the
recursive calls with `if node.left:` / `if node.right:`; since the
traversal of an absent child contributes nothing, the guard is expressed
by the `null` branch returning `[]`. -/
def dfsCodes : PyNode → List Bool → List (Nat × List Bool)
  | .null, _ => []
  | .node (some c) _ _ _, code => [(c, if code = [] then [false] else code)]
  | .node none _ l r, code => dfsCodes l (code ++ [false]) ++ dfsCodes r (code ++ [true])

/-- `_build_codes(root)`: empty table for no tree, else the traversal. -/
def buildCodes (root : PyNode) : List (Nat × List Bool) :=
  match root with
  | .null => []
  | .node ch f l r => dfsCodes (.node ch f l r) []

/-- `_encode_data(data, codes) = ''.join(codes[char] for char in data)`;
a missing key raises (KeyError), caught by `compress`'s `except`. -/
def encodeData (data : List Nat) (codes : List (Nat × List Bool)) : Except HErr (List Bool) :=
  match data with
  | [] => .ok []
  | c :: rest =>
    match codes.lookup c with
    | none => .error .runtimeError
    | some p =>
      match encodeData rest codes with
      | .error e => .error e
      | .ok bits => .ok (p ++ bits)

/-! ## Decoding -/

/-- The loop body of `_decode_data` plus the final-leaf check.  Each bit:
if the current node is a leaf, emit its char and restart at the root;
then move left on `'0'` (`false`) and right otherwise.  After the last
bit, a current leaf is emitted.  Dereferencing the `None` reference
(`current.char` when a walk fell off the tree) raises, caught by
`decompress`'s `except`. -/
def decodeGo (root : PyNode) : List Bool → PyNode → List Nat → Except HErr (List Nat)
  | [], current, acc =>
    match current with
    | .null => .error .runtimeError
    | .node (some c) _ _ _ => .ok (acc ++ [c])
    | .node none _ _ _ => .ok acc
  | bit :: rest, current, acc =>
    match current with
    | .null => .error .runtimeError
    | .node (some c) _ _ _ =>
      match root with
      | .null => .error .runtimeError
      | .node _ _ rl rr => decodeGo root rest (if bit then rr else rl) (acc ++ [c])
    | .node none _ l r => decodeGo root rest (if bit then r else l) acc

/-- `_decode_data(encoded_data, root)`: `b""` when there is no tree or no
bits, else the walk. -/
def decodeData (bits : List Bool) (root : PyNode) : Except HErr (List Nat) :=
  match root with
  | .null => .ok []
  | .node ch f l r =>
    match bits with
    | [] => .ok []
    | _ :: _ => decodeGo (.node ch f l r) bits (.node ch f l r) []

/-! ## Tree serialization -/

/-- The tuples produced by `_serialize_tree`: `None`, `('leaf', char)`,
or `('internal', left, right)`. -/
inductive SerTree where
  | snone : SerTree
  | sleaf (c : Nat) : SerTree
  | sinternal (l r : SerTree) : SerTree
  deriving DecidableEq, Repr

/-- `_serialize_tree(node)`. -/
def serializeTree : PyNode → SerTree
  | .null => .snone
  | .node (some c) _ _ _ => .sleaf c
  | .node none _ l r => .sinternal (serializeTree l) (serializeTree r)

/-- `_deserialize_tree(data)`: leaves come back with `freq = 0` and no
children, internal nodes with `freq = 0`. -/
def deserializeTree : SerTree → PyNode
  | .snone => .null
  | .sleaf c => .node (some c) 0 .null .null
  | .sinternal l r => .node none 0 (deserializeTree l) (deserializeTree r)

/-! ## Bit packing -/

/-- `int(chunk, 2)` on a `'0'`/`'1'` string, MSB first. -/
def bitsVal (bits : List Bool) : Nat :=
  bits.foldl (fun acc b => 2 * acc + if b then 1 else 0) 0

/-- `for i in range(0, len(encoded_data), 8): append(int(encoded_data[i:i+8], 2))`:
split into chunks of 8 (the last chunk may be shorter) and value each. -/
def bitsToBytes : List Bool → List Nat
  | [] => []
  | b1 :: b2 :: b3 :: b4 :: b5 :: b6 :: b7 :: b8 :: rest =>
    bitsVal [b1, b2, b3, b4, b5, b6, b7, b8] :: bitsToBytes rest
  | bits => [bitsVal bits]

/-- `format(byte, '08b')` for `byte < 256`: the 8 bits, MSB first.
Payload bytes always satisfy `byte < 256` (they are bit-chunk values,
resp. bytes read from a file). -/
def byteToBits (b : Nat) : List Bool :=
  [decide (b / 128 % 2 = 1), decide (b / 64 % 2 = 1), decide (b / 32 % 2 = 1),
   decide (b / 16 % 2 = 1), decide (b / 8 % 2 = 1), decide (b / 4 % 2 = 1),
   decide (b / 2 % 2 = 1), decide (b % 2 = 1)]

/-- `''.join(format(byte, '08b') for byte in compressed_data)`. -/
def bytesToBits (bytes : List Nat) : List Bool :=
  (bytes.map byteToBits).flatten

/-- The Python slice `s[:-p]`: empty for `p = 0` (since `-0 = 0`), else
all but the last `p` elements. -/
def pyTailSlice (l : List Bool) (p : Nat) : List Bool :=
  if p = 0 then [] else l.take (l.length - p)

/-! ## The container and the two entry points -/

/-- `b'HZIP'`. -/
def HZIP_MAGIC : List Nat := [72, 90, 73, 80]

/-- The container written by `compress`: the 4 magic bytes, the padding
byte, the serialized tree (as the pickled tuple structure; the pickle
byte length `tree_size` is opaque and not modelled), and the packed
payload bytes. -/
structure Container where
  magic : List Nat
  padding : Nat
  treeData : SerTree
  payload : List Nat
  deriving DecidableEq, Repr

/-- `HuffmanCoding.compress`, as the pure byte-sequence transformation
behind the file I/O: reject empty input, build table/tree/codes, encode,
pad with `8 - len % 8` zero bits unless that is 8 (in which case nothing
is appended), pack, and assemble the container. -/
def compress (data : List Nat) : Except HErr Container :=
  if data = [] then .error .emptyInput
  else
    let freqTable := buildFrequencyTable data
    let root := buildHuffmanTree freqTable
    let codes := buildCodes root
    match encodeData data codes with
    | .error e => .error e
    | .ok encoded =>
      let padding := 8 - encoded.length % 8
      let padded := if padding ≠ 8 then encoded ++ List.replicate padding false else encoded
      .ok { magic := HZIP_MAGIC
            padding := padding
            treeData := serializeTree root
            payload := bitsToBytes padded }

/-- `HuffmanCoding.decompress`, as the pure transformation behind the
file I/O: check the magic tag, rebuild the tree, unpack the payload to
bits, strip the recorded padding unless it is 8, and decode. -/
def decompress (cont : Container) : Except HErr (List Nat) :=
  if cont.magic ≠ HZIP_MAGIC then .error .formatMismatch
  else
    let root := deserializeTree cont.treeData
    let bits := bytesToBits cont.payload
    let stripped := if cont.padding ≠ 8 then pyTailSlice bits cont.padding else bits
    decodeData stripped root

/-! ## Derived notions used to state and prove the properties -/

/-- The chars of the leaves of a tree, in traversal order. -/
def leafChars : PyNode → List Nat
  | .null => []
  | .node (some c) _ _ _ => [c]
  | .node none _ l r => leafChars l ++ leafChars r

/-- Erase all `freq` fields (set them to 0), keeping shape and chars.
Two trees have identical shape and leaf values iff their `zeroFreq`
images are equal. -/
def zeroFreq : PyNode → PyNode
  | .null => .null
  | .node ch _ l r => .node ch 0 (zeroFreq l) (zeroFreq r)

/-- `WalksTo t p c`: following the bit path `p` from `t` crosses only
internal (`char = none`) nodes and ends on a leaf labelled `c`.  This is
exactly the situation in which the decoder's walk of `p` emits `c`. -/
def WalksTo : PyNode → List Bool → Nat → Prop
  | t, [], c => ∃ f l r, t = .node (some c) f l r
  | t, b :: p, c => ∃ f l r, t = .node none f l r ∧ WalksTo (if b then r else l) p c

/-- Trees producible as heap elements during construction: leaves have
no children, internal nodes have two (recursively good) children. -/
inductive Good : PyNode → Prop
  | leaf (c f : Nat) : Good (.node (some c) f .null .null)
  | node (f : Nat) {l r : PyNode} : Good l → Good r → Good (.node none f l r)

/-- A possibly absent child of the root: the `None` right child of the
degenerate single-symbol root, or a good subtree. -/
def GoodOpt (t : PyNode) : Prop := t = .null ∨ Good t

/-- All leaf chars across a heap. -/
def heapChars (h : List PyNode) : List Nat := (h.map leafChars).flatten

/-- Composition of the two entry points: the round-trip map. -/
def roundtrip (data : List Nat) : Except HErr (List Nat) :=
  match compress data with
  | .error e => .error e
  | .ok cont => decompress cont

/-! ## List permutation helpers for the sift operations -/

section PermHelpers

variable {α : Type}

/-- Reading position `k` and overwriting it with `x` only exchanges the
two values, up to permutation. -/
theorem getD_cons_set_perm (d : α) :
    ∀ (l : List α) (k : Nat) (x : α), k < l.length →
      l.getD k d :: l.set k x ~ x :: l
  | a :: t, 0, x, _ => by simpa using List.Perm.swap x a t
  | a :: t, k + 1, x, hk => by
    have ih := getD_cons_set_perm d t k x (by simpa using hk)
    calc t.getD k d :: a :: t.set k x
        ~ a :: t.getD k d :: t.set k x := List.Perm.swap _ _ _
      _ ~ a :: x :: t := ih.cons a
      _ ~ x :: a :: t := List.Perm.swap _ _ _

/-- Prepending `x` after writing `y` is, up to permutation, prepending
`y` after writing `x`. -/
theorem cons_set_comm_perm :
    ∀ (l : List α) (k : Nat) (x y : α), k < l.length →
      x :: l.set k y ~ y :: l.set k x
  | a :: t, 0, x, y, _ => List.Perm.swap y x t
  | a :: t, k + 1, x, y, hk => by
    have ih := cons_set_comm_perm t k x y (by simpa using hk)
    calc x :: a :: t.set k y
        ~ a :: x :: t.set k y := List.Perm.swap _ _ _
      _ ~ a :: y :: t.set k x := ih.cons a
      _ ~ y :: a :: t.set k x := List.Perm.swap _ _ _

/-- Copying the value at `j` over position `i` and then overwriting
position `j` with `x` permutes into simply writing `x` at `i`. -/
theorem set_set_swap_perm (d : α) :
    ∀ (l : List α) (i j : Nat) (x : α), i < l.length → j < l.length → i ≠ j →
      (l.set i (l.getD j d)).set j x ~ l.set i x
  | a :: t, 0, 0, x, _, _, hne => absurd rfl hne
  | a :: t, 0, j + 1, x, hi, hj, _ => by
    simpa using getD_cons_set_perm d t j x (by simpa using hj)
  | a :: t, i + 1, 0, x, hi, _, _ => by
    simpa using cons_set_comm_perm t i x a (by simpa using hi)
  | a :: t, i + 1, j + 1, x, hi, hj, hne => by
    have ih := set_set_swap_perm d t i j x (by simpa using hi) (by simpa using hj)
      (fun h => hne (by omega))
    simpa using ih.cons a

end PermHelpers

/-! ## Permutation and length facts for the heap operations -/

section HeapqFacts

variable {α : Type} (lt : α → α → Bool) (d : α)

theorem siftdownGo_perm (sp : Nat) (ni : α) :
    ∀ (fuel : Nat) (heap : List α) (pos : Nat), pos < heap.length →
      siftdownGo lt d sp ni fuel heap pos ~ heap.set pos ni
  | 0, heap, pos, _ => by simp [siftdownGo]
  | fuel + 1, heap, pos, hpos => by
    rw [siftdownGo]
    split
    · next hlt =>
      dsimp only
      split
      · next =>
        have hpp : (pos - 1) / 2 < pos := by omega
        have ih := siftdownGo_perm sp ni fuel (heap.set pos (heap.getD ((pos - 1) / 2) d))
          ((pos - 1) / 2) (by simpa using Nat.lt_trans hpp hpos)
        exact ih.trans (set_set_swap_perm d heap pos ((pos - 1) / 2) ni hpos
          (Nat.lt_trans hpp hpos) (by omega))
      · exact List.Perm.refl _
    · exact List.Perm.refl _

theorem heappush_perm (heap : List α) (item : α) :
    heappush lt d heap item ~ item :: heap := by
  have hlen : heap.length < (heap ++ [item]).length := by simp
  have hni : (heap ++ [item]).getD ((heap ++ [item]).length - 1) d = item := by
    simp [List.getD_eq_getElem?_getD, List.getElem?_concat_length]
  have h := siftdownGo_perm lt d 0 ((heap ++ [item]).getD ((heap ++ [item]).length - 1) d)
    ((heap ++ [item]).length - 1) (heap ++ [item]) ((heap ++ [item]).length - 1)
    (by simp)
  rw [heappush, siftdown]
  refine (h.trans ?_)
  rw [hni]
  have hset : (heap ++ [item]).set ((heap ++ [item]).length - 1) item = heap ++ [item] := by
    rw [List.set_append_right _ _ (by simp)]
    simp
  rw [hset]
  exact List.perm_append_singleton item heap

theorem length_heappush (heap : List α) (item : α) :
    (heappush lt d heap item).length = heap.length + 1 := by
  simpa using (heappush_perm lt d heap item).length_eq

theorem siftupGo_perm (sp : Nat) (ni : α) :
    ∀ (fuel : Nat) (heap : List α) (pos : Nat), pos < heap.length →
      siftupGo lt d sp ni fuel heap pos ~ heap.set pos ni
  | 0, heap, pos, hpos => by
    rw [siftupGo, siftdown]
    have hget : (heap.set pos ni).getD pos d = ni := by
      simp [List.getD_eq_getElem?_getD, List.getElem?_set_self (by simpa using hpos)]
    rw [hget]
    exact (siftdownGo_perm lt d sp ni pos (heap.set pos ni) pos (by simpa using hpos)).trans
      (by rw [List.set_set])
  | fuel + 1, heap, pos, hpos => by
    rw [siftupGo]
    split
    · next hchild =>
      set cp := if 2 * pos + 1 + 1 < heap.length ∧
          ¬ lt (heap.getD (2 * pos + 1) d) (heap.getD (2 * pos + 1 + 1) d) = true then
          2 * pos + 1 + 1
        else
          2 * pos + 1 with hcp
      have hcplt : cp < heap.length := by
        rw [hcp]; split
        · next h => exact h.1
        · exact hchild
      have hcpne : pos ≠ cp := by rw [hcp]; split <;> omega
      have ih := siftupGo_perm sp ni fuel (heap.set pos (heap.getD cp d)) cp
        (by simpa using hcplt)
      exact ih.trans (set_set_swap_perm d heap pos cp ni hpos hcplt hcpne)
    · next =>
      rw [siftdown]
      have hget : (heap.set pos ni).getD pos d = ni := by
        simp [List.getD_eq_getElem?_getD, List.getElem?_set_self (by simpa using hpos)]
      rw [hget]
      exact (siftdownGo_perm lt d sp ni pos (heap.set pos ni) pos (by simpa using hpos)).trans
        (by rw [List.set_set])

theorem heappop_perm :
    ∀ {heap : List α} {a : α} {rest : List α}, heappop lt d heap = some (a, rest) →
      a :: rest ~ heap := by
  intro heap a rest h
  match heap, h with
  | x :: xs, h =>
    rw [heappop] at h
    rcases hdl : (x :: xs).dropLast with _ | ⟨y, ys⟩ <;> rw [hdl] at h
    · simp only [Option.some.injEq, Prod.mk.injEq] at h
      have hx : x :: xs = [x] := by
        have := congrArg List.length hdl
        simp at this
        rcases xs with _ | _
        · rfl
        · simp at this
      rw [hx]
      rw [hx] at h
      simp [List.getLastD] at h
      rw [← h.1, ← h.2]
    · simp only [Option.some.injEq, Prod.mk.injEq] at h
      have hylen : 0 < (y :: ys).length := by simp
      have hperm1 : rest ~ (y :: ys).set 0 ((x :: xs).getLastD d) := by
        rw [← h.2, siftup]
        have hget : (((y :: ys).set 0 ((x :: xs).getLastD d))).getD 0 d
            = (x :: xs).getLastD d := by
          simp [List.getD_eq_getElem?_getD]
        rw [hget]
        exact (siftupGo_perm lt d 0 _ _ _ 0 (by simp)).trans (by rw [List.set_set])
      have hperm2 : a :: rest ~ (x :: xs).getLastD d :: (y :: ys) := by
        calc a :: rest
            ~ a :: (y :: ys).set 0 ((x :: xs).getLastD d) := hperm1.cons a
          _ = (y :: ys).getD 0 d :: (y :: ys).set 0 ((x :: xs).getLastD d) := by rw [h.1]
          _ ~ (x :: xs).getLastD d :: (y :: ys) :=
              getD_cons_set_perm d (y :: ys) 0 ((x :: xs).getLastD d) hylen
      refine hperm2.trans ?_
      have hne : x :: xs ≠ [] := by simp
      have hlast : (x :: xs).getLastD d = (x :: xs).getLast hne := by
        simp [List.getLastD_eq_getLast?, List.getLast?_eq_getLast _ hne]
      rw [hlast, ← hdl]
      exact (List.perm_append_singleton _ _).symm.trans
        (by rw [List.dropLast_append_getLast hne])

theorem heappop_isSome (heap : List α) (h : heap ≠ []) :
    ∃ a rest, heappop lt d heap = some (a, rest) := by
  match heap, h with
  | x :: xs, _ =>
    rw [heappop]
    rcases hdl : (x :: xs).dropLast with _ | ⟨y, ys⟩
    · exact ⟨_, _, rfl⟩
    · exact ⟨_, _, rfl⟩

theorem length_heappop {heap : List α} {a : α} {rest : List α}
    (h : heappop lt d heap = some (a, rest)) : rest.length + 1 = heap.length := by
  simpa using (heappop_perm lt d h).length_eq

end HeapqFacts

/-! ## The construction invariant: good trees, preserved leaf chars -/

theorem heapChars_perm {h1 h2 : List PyNode} (h : h1 ~ h2) :
    heapChars h1 ~ heapChars h2 :=
  (h.map leafChars).flatten

theorem mergeLoop_singleton (fuel : Nat) (e : PyNode) :
    mergeLoop fuel [e] = e := by
  cases fuel <;> simp [mergeLoop]

theorem length_eq_one_iff {β : Type} (l : List β) (h : l.length = 1) : ∃ e, l = [e] := by
  match l, h with
  | [e], _ => exact ⟨e, rfl⟩

theorem mergeLoop_spec :
    ∀ (fuel : Nat) (heap : List PyNode), 1 ≤ heap.length → heap.length ≤ fuel + 1 →
      (∀ e ∈ heap, Good e) →
      Good (mergeLoop fuel heap) ∧ leafChars (mergeLoop fuel heap) ~ heapChars heap ∧
        (2 ≤ heap.length → ∃ f l r, mergeLoop fuel heap = .node none f l r) := by
  intro fuel
  induction fuel with
  | zero =>
    intro heap hge hle hgood
    obtain ⟨e, rfl⟩ := length_eq_one_iff heap (by omega)
    refine ⟨hgood e (by simp), ?_, by intro h; simp at h⟩
    simp [mergeLoop, heapChars]
  | succ fuel ih =>
    intro heap hge hle hgood
    by_cases hlen : 1 < heap.length
    · obtain ⟨l, h1, hpop1⟩ := heappop_isSome nodeLt dNode heap
        (by intro h; rw [h] at hge; simp at hge)
      have hlen1 : h1.length + 1 = heap.length := length_heappop nodeLt dNode hpop1
      obtain ⟨r, h2, hpop2⟩ := heappop_isSome nodeLt dNode h1
        (by intro h; rw [h] at hlen1; simp at hlen1; omega)
      have hlen2 : h2.length + 1 = h1.length := length_heappop nodeLt dNode hpop2
      have p1 : l :: h1 ~ heap := heappop_perm nodeLt dNode hpop1
      have p2 : r :: h2 ~ h1 := heappop_perm nodeLt dNode hpop2
      have hl : Good l := hgood l (p1.mem_iff.mp (by simp))
      have hr : Good r := hgood r (p1.mem_iff.mp (List.mem_cons_of_mem l (p2.mem_iff.mp (by simp))))
      set merged : PyNode := .node none (l.freq + r.freq) l r with hmerged
      have p3 : heappush nodeLt dNode h2 merged ~ merged :: h2 :=
        heappush_perm nodeLt dNode h2 merged
      have hlen3 : (heappush nodeLt dNode h2 merged).length = heap.length - 1 := by
        rw [length_heappush]; omega
      have hgood' : ∀ e ∈ heappush nodeLt dNode h2 merged, Good e := by
        intro e he
        rcases List.mem_cons.mp (p3.mem_iff.mp he) with rfl | he
        · exact Good.node _ hl hr
        · exact hgood e (p1.mem_iff.mp (List.mem_cons_of_mem l
            (p2.mem_iff.mp (List.mem_cons_of_mem r he))))
      have ihm := ih (heappush nodeLt dNode h2 merged) (by omega) (by omega) hgood'
      have hstep : mergeLoop (fuel + 1) heap = mergeLoop fuel (heappush nodeLt dNode h2 merged) := by
        simp only [mergeLoop, if_pos hlen, hpop1, hpop2]
      have hchars : heapChars (heappush nodeLt dNode h2 merged) ~ heapChars heap := by
        calc heapChars (heappush nodeLt dNode h2 merged)
            ~ heapChars (merged :: h2) := heapChars_perm p3
          _ = (leafChars l ++ leafChars r) ++ heapChars h2 := by
              simp [heapChars, hmerged, leafChars]
          _ ~ leafChars l ++ (leafChars r ++ heapChars h2) := by rw [List.append_assoc]
          _ = leafChars l ++ heapChars (r :: h2) := by simp [heapChars]
          _ ~ leafChars l ++ heapChars h1 := (heapChars_perm p2).append_left _
          _ = heapChars (l :: h1) := by simp [heapChars]
          _ ~ heapChars heap := heapChars_perm p1
      refine ⟨hstep ▸ ihm.1, (hstep ▸ ihm.2.1).trans hchars, ?_⟩
      intro _
      rw [hstep]
      by_cases h2len : 2 ≤ (heappush nodeLt dNode h2 merged).length
      · exact ihm.2.2 h2len
      · have : h2 = [] := by
          have := length_heappush nodeLt dNode h2 merged
          rcases h2 with _ | _
          · rfl
          · simp at this ⊢; omega
        subst this
        have hpush : heappush nodeLt dNode ([] : List PyNode) merged = [merged] := rfl
        rw [hpush, mergeLoop_singleton]
        exact ⟨_, _, _, rfl⟩
    · obtain ⟨e, rfl⟩ := length_eq_one_iff heap (by omega)
      refine ⟨?_, ?_, by intro h; simp at h⟩
      · rw [mergeLoop_singleton]; exact hgood e (by simp)
      · rw [mergeLoop_singleton]; simp [heapChars]

/-- Pushing a list of fresh leaves (via `foldl`) is, up to permutation,
appending them. -/
theorem foldl_push_perm {α : Type} (lt : α → α → Bool) (d : α) {β : Type} (mk : β → α) :
    ∀ (items : List β) (acc : List α),
      items.foldl (fun h b => heappush lt d h (mk b)) acc ~ acc ++ items.map mk := by
  intro items
  induction items with
  | nil => intro acc; simp
  | cons b rest ih =>
    intro acc
    simp only [List.foldl_cons, List.map_cons]
    calc rest.foldl (fun h b => heappush lt d h (mk b)) (heappush lt d acc (mk b))
        ~ heappush lt d acc (mk b) ++ rest.map mk := ih _
      _ ~ (mk b :: acc) ++ rest.map mk :=
          (heappush_perm lt d acc (mk b)).append_right _
      _ ~ acc ++ mk b :: rest.map mk := by
          simp only [List.cons_append]
          exact List.perm_middle.symm

theorem heapChars_leaves :
    ∀ ft : List (Nat × Nat),
      heapChars (ft.map fun cf => PyNode.node (some cf.1) cf.2 .null .null) = ft.map Prod.fst := by
  intro ft
  induction ft with
  | nil => simp [heapChars]
  | cons cf rest ih => simp [heapChars, leafChars] at ih ⊢; exact ih

/-- What `_build_huffman_tree` guarantees on a nonempty frequency table:
an internal root whose left subtree is good, whose right subtree is good
or the degenerate `None`, and whose leaf chars are the table keys up to
permutation. -/
theorem buildHuffmanTree_spec (ft : List (Nat × Nat)) (hft : ft ≠ []) :
    ∃ f l r, buildHuffmanTree ft = .node none f l r ∧ Good l ∧ GoodOpt r ∧
      leafChars (PyNode.node none f l r) ~ ft.map Prod.fst := by
  match ft, hft with
  | (c, n) :: rest, _ =>
    have hperm : (((c, n) :: rest).foldl
        (fun h cf => heappush nodeLt dNode h (.node (some cf.1) cf.2 .null .null)) []) ~
        ([] : List PyNode) ++ ((c, n) :: rest).map fun cf => PyNode.node (some cf.1) cf.2 .null .null :=
      foldl_push_perm nodeLt dNode _ ((c, n) :: rest) []
    rcases rest with _ | ⟨cf2, rest'⟩
    · exact ⟨n, .node (some c) n .null .null, .null, rfl, Good.leaf c n, Or.inl rfl, by
        simp [leafChars]⟩
    · set heapList := (((c, n) :: cf2 :: rest').foldl
        (fun h cf => heappush nodeLt dNode h (.node (some cf.1) cf.2 .null .null)) []) with hheap
      have hlen : heapList.length = rest'.length + 2 := by
        have := hperm.length_eq
        simpa using this
      have hbuild : buildHuffmanTree ((c, n) :: cf2 :: rest') =
          mergeLoop heapList.length heapList := by
        rw [buildHuffmanTree]
        simp only [← hheap]
        rw [if_neg (by omega)]
      have hgood : ∀ e ∈ heapList, Good e := by
        intro e he
        have := hperm.mem_iff.mp he
        simp only [List.nil_append, List.mem_map] at this
        obtain ⟨cf, _, rfl⟩ := this
        exact Good.leaf cf.1 cf.2
      have hml := mergeLoop_spec heapList.length heapList (by omega) (by omega) hgood
      obtain ⟨f, l, r, hroot⟩ := hml.2.2 (by omega)
      refine ⟨f, l, r, hbuild.trans hroot, ?_, ?_, ?_⟩
      · have := hml.1
        rw [hroot] at this
        cases this with
        | node _ hl hr => exact hl
      · have := hml.1
        rw [hroot] at this
        cases this with
        | node _ hl hr => exact Or.inr hr
      · have := hml.2.1
        rw [hroot] at this
        refine this.trans ?_
        calc heapChars heapList
            ~ heapChars (((c, n) :: cf2 :: rest').map
                fun cf => PyNode.node (some cf.1) cf.2 .null .null) := by
              have := heapChars_perm hperm
              simpa using this
          _ = ((c, n) :: cf2 :: rest').map Prod.fst := heapChars_leaves _

/-! ## The code table: keys, paths, prefix-freeness -/

theorem dfs_keys : ∀ (t : PyNode) (pre : List Bool),
    (dfsCodes t pre).map Prod.fst = leafChars t
  | .null, _ => rfl
  | .node (some c) _ _ _, pre => by simp [dfsCodes, leafChars]
  | .node none _ l r, pre => by
    simp [dfsCodes, leafChars, dfs_keys l, dfs_keys r]

theorem dfs_mem_split : ∀ (t : PyNode) (pre : List Bool) (c : Nat) (p : List Bool),
    (c, p) ∈ dfsCodes t pre → pre ≠ [] → ∃ q, p = pre ++ q ∧ WalksTo t q c
  | .null, pre, c, p, hmem, _ => by simp [dfsCodes] at hmem
  | .node (some c0) f l r, pre, c, p, hmem, hpre => by
    simp only [dfsCodes, if_neg hpre, List.mem_singleton, Prod.mk.injEq] at hmem
    exact ⟨[], by simp [hmem.2], by rw [hmem.1]; exact ⟨f, l, r, rfl⟩⟩
  | .node none f l r, pre, c, p, hmem, hpre => by
    simp only [dfsCodes, List.mem_append] at hmem
    rcases hmem with hmem | hmem
    · obtain ⟨q, hq, hw⟩ := dfs_mem_split l (pre ++ [false]) c p hmem (by simp)
      exact ⟨false :: q, by simp [hq], f, l, r, rfl, hw⟩
    · obtain ⟨q, hq, hw⟩ := dfs_mem_split r (pre ++ [true]) c p hmem (by simp)
      exact ⟨true :: q, by simp [hq], f, l, r, rfl, hw⟩

/-- Every entry of the code table of an internal root is a walkable path
to the corresponding leaf. -/
theorem codes_walksTo {f : Nat} {l r : PyNode} {c : Nat} {p : List Bool}
    (hmem : (c, p) ∈ buildCodes (.node none f l r)) :
    WalksTo (.node none f l r) p c := by
  rw [buildCodes] at hmem
  simp only [dfsCodes, List.nil_append, List.mem_append] at hmem
  rcases hmem with hmem | hmem
  · obtain ⟨q, hq, hw⟩ := dfs_mem_split l [false] c p hmem (by simp)
    rw [hq]
    exact ⟨f, l, r, rfl, hw⟩
  · obtain ⟨q, hq, hw⟩ := dfs_mem_split r [true] c p hmem (by simp)
    rw [hq]
    exact ⟨f, l, r, rfl, hw⟩

/-- A path in `WalksTo` position never starts with the empty code when
the start node is internal. -/
theorem WalksTo.ne_nil {f : Nat} {l r : PyNode} {p : List Bool} {c : Nat}
    (h : WalksTo (.node none f l r) p c) : p ≠ [] := by
  intro hp
  subst hp
  obtain ⟨_, _, _, h⟩ := h
  simp at h

theorem append_left_prefix_cancel {β : Type} {l l₁ l₂ : List β}
    (h : (l ++ l₁) <+: (l ++ l₂)) : l₁ <+: l₂ := by
  obtain ⟨t, ht⟩ := h
  refine ⟨t, ?_⟩
  have h2 : l ++ (l₁ ++ t) = l ++ l₂ := by simpa [List.append_assoc] using ht
  exact List.append_cancel_left h2

/-- Codes recorded by the traversal at distinct leaves are never
prefixes of one another: a table entry whose code is a prefix of another
entry's code is that same entry. -/
theorem dfs_prefix_of : ∀ (t : PyNode) (pre : List Bool) (c : Nat) (p : List Bool)
    (c' : Nat) (p' : List Bool),
    (c, p) ∈ dfsCodes t pre → (c', p') ∈ dfsCodes t pre → p <+: p' → c = c' ∧ p = p'
  | .null, pre, c, p, c', p', hmem, _, _ => by simp [dfsCodes] at hmem
  | .node (some c0) f l r, pre, c, p, c', p', hmem, hmem', _ => by
    simp only [dfsCodes, List.mem_singleton, Prod.mk.injEq] at hmem hmem'
    rw [hmem.1, hmem.2, hmem'.1, hmem'.2]
    exact ⟨rfl, rfl⟩
  | .node none f l r, pre, c, p, c', p', hmem, hmem', hpre => by
    simp only [dfsCodes, List.mem_append] at hmem hmem'
    rcases hmem with hmem | hmem <;> rcases hmem' with hmem' | hmem'
    · exact dfs_prefix_of l (pre ++ [false]) c p c' p' hmem hmem' hpre
    · obtain ⟨q, hq, -⟩ := dfs_mem_split l (pre ++ [false]) c p hmem (by simp)
      obtain ⟨q', hq', -⟩ := dfs_mem_split r (pre ++ [true]) c' p' hmem' (by simp)
      rw [hq, hq'] at hpre
      simp only [List.append_assoc, List.singleton_append] at hpre
      have := append_left_prefix_cancel hpre
      obtain ⟨t, ht⟩ := this
      simp at ht
    · obtain ⟨q, hq, -⟩ := dfs_mem_split r (pre ++ [true]) c p hmem (by simp)
      obtain ⟨q', hq', -⟩ := dfs_mem_split l (pre ++ [false]) c' p' hmem' (by simp)
      rw [hq, hq'] at hpre
      simp only [List.append_assoc, List.singleton_append] at hpre
      have := append_left_prefix_cancel hpre
      obtain ⟨t, ht⟩ := this
      simp at ht
    · exact dfs_prefix_of r (pre ++ [true]) c p c' p' hmem hmem' hpre

/-! ## Serialization round trip on construction trees -/

/-- The traversal ignores `freq` fields. -/
theorem dfsCodes_zeroFreq : ∀ (t : PyNode) (pre : List Bool),
    dfsCodes (zeroFreq t) pre = dfsCodes t pre
  | .null, _ => rfl
  | .node (some c) _ _ _, pre => rfl
  | .node none _ l r, pre => by
    simp [zeroFreq, dfsCodes, dfsCodes_zeroFreq l, dfsCodes_zeroFreq r]

theorem leafChars_zeroFreq : ∀ t : PyNode, leafChars (zeroFreq t) = leafChars t
  | .null => rfl
  | .node (some c) _ _ _ => rfl
  | .node none _ l r => by
    simp [zeroFreq, leafChars, leafChars_zeroFreq l, leafChars_zeroFreq r]

/-- On good trees (leaves childless), deserializing the serialization
rebuilds the same tree with all weights zeroed. -/
theorem ser_roundtrip_good {t : PyNode} (h : Good t) :
    deserializeTree (serializeTree t) = zeroFreq t := by
  induction h with
  | leaf c f => rfl
  | node f hl hr ihl ihr => simp [serializeTree, deserializeTree, zeroFreq, ihl, ihr]

/-- The same for the root produced by construction, whose right child
may be the degenerate `None`. -/
theorem ser_roundtrip_root {f : Nat} {l r : PyNode} (hl : Good l) (hr : GoodOpt r) :
    deserializeTree (serializeTree (.node none f l r)) = zeroFreq (.node none f l r) := by
  rcases hr with rfl | hr
  · simp [serializeTree, deserializeTree, zeroFreq, ser_roundtrip_good hl]
  · simp [serializeTree, deserializeTree, zeroFreq, ser_roundtrip_good hl,
      ser_roundtrip_good hr]

/-! ## Encoding succeeds exactly on chars present in the table -/

theorem lookup_mem {β : Type} :
    ∀ {codes : List (Nat × β)} {c : Nat} {p : β}, codes.lookup c = some p → (c, p) ∈ codes := by
  intro codes
  induction codes with
  | nil => intro c p h; simp [List.lookup] at h
  | cons e rest ih =>
    obtain ⟨k, v⟩ := e
    intro c p h
    rw [List.lookup] at h
    split at h
    · next hc =>
      cases h
      rw [show c = k from eq_of_beq hc]
      exact List.mem_cons_self _ _
    · next hc =>
      exact List.mem_cons_of_mem _ (ih h)

theorem lookup_isSome_of_mem_keys {β : Type} :
    ∀ {codes : List (Nat × β)} {c : Nat}, c ∈ codes.map Prod.fst →
      ∃ p, codes.lookup c = some p := by
  intro codes
  induction codes with
  | nil => intro c h; simp at h
  | cons e rest ih =>
    intro c h
    rw [List.lookup]
    cases hc : c == e.1
    · refine ih ?_
      simp only [List.map_cons, List.mem_cons] at h
      rcases h with h | h
      · rw [h] at hc; simp at hc
      · exact h
    · exact ⟨e.2, rfl⟩

theorem encode_ok :
    ∀ (data : List Nat) (codes : List (Nat × List Bool)),
      (∀ c ∈ data, ∃ p, codes.lookup c = some p) →
      encodeData data codes = .ok ((data.map fun c => (codes.lookup c).getD []).flatten)
  | [], codes, _ => rfl
  | c :: rest, codes, h => by
    obtain ⟨p, hp⟩ := h c (by simp)
    rw [encodeData, hp, encode_ok rest codes (fun c hc => h c (List.mem_cons_of_mem _ hc))]
    simp [hp]

/-! ## Decode correctness -/

/-- Walking one full code: starting anywhere on a `WalksTo` path, the
decoder consumes the path and then, depending on the remaining input,
either ends (emitting the leaf) or emits the leaf, restarts at the root
and consumes the next bit from the root. -/
theorem walk_decode {rf : Nat} {rl rr : PyNode} :
    ∀ (p : List Bool) (n : PyNode) (c : Nat), WalksTo n p c →
      ∀ (rest : List Bool) (acc : List Nat),
        decodeGo (.node none rf rl rr) (p ++ rest) n acc =
          match rest with
          | [] => .ok (acc ++ [c])
          | b :: rest2 => decodeGo (.node none rf rl rr) rest2 (if b then rr else rl) (acc ++ [c])
  | [], n, c, hw, rest, acc => by
    obtain ⟨f, l, r, rfl⟩ := hw
    cases rest with
    | nil => rfl
    | cons b rest2 => rfl
  | b :: p, n, c, hw, rest, acc => by
    obtain ⟨f, l, r, rfl, hw2⟩ := hw
    rw [List.cons_append, decodeGo]
    exact walk_decode p (if b then r else l) c hw2 rest acc

/-- Decoding the concatenation of the codes of a nonempty char sequence
emits exactly that sequence. -/
theorem decode_codes {rf : Nat} {rl rr : PyNode} (codeOf : Nat → List Bool) :
    ∀ (cs : List Nat), cs ≠ [] →
      (∀ c ∈ cs, WalksTo (.node none rf rl rr) (codeOf c) c) →
      ∀ acc : List Nat,
        decodeGo (.node none rf rl rr) ((cs.map codeOf).flatten) (.node none rf rl rr) acc =
          .ok (acc ++ cs)
  | [], hne, _, _ => absurd rfl hne
  | [c], _, hw, acc => by
    have h1 : decodeGo (.node none rf rl rr) (codeOf c ++ []) (.node none rf rl rr) acc =
        .ok (acc ++ [c]) :=
      walk_decode (codeOf c) (.node none rf rl rr) c (hw c (by simp)) [] acc
    simpa using h1
  | c :: c2 :: cs, _, hw, acc => by
    have hw2 : WalksTo (.node none rf rl rr) (codeOf c2) c2 := hw c2 (by simp)
    have hne2 : codeOf c2 ≠ [] := hw2.ne_nil
    obtain ⟨b, q, hbq⟩ : ∃ b q, codeOf c2 = b :: q := by
      cases hcq : codeOf c2 with
      | nil => exact absurd hcq hne2
      | cons b q => exact ⟨b, q, rfl⟩
    have hflat : ((c2 :: cs).map codeOf).flatten = b :: (q ++ ((cs.map codeOf).flatten)) := by
      simp [hbq]
    have h1 : decodeGo (.node none rf rl rr)
        (codeOf c ++ (b :: (q ++ ((cs.map codeOf).flatten)))) (.node none rf rl rr) acc =
        decodeGo (.node none rf rl rr) (q ++ ((cs.map codeOf).flatten))
          (if b then rr else rl) (acc ++ [c]) :=
      walk_decode (codeOf c) (.node none rf rl rr) c (hw c (by simp)) _ acc
    have hstep : decodeGo (.node none rf rl rr) (q ++ ((cs.map codeOf).flatten))
        (if b then rr else rl) (acc ++ [c]) =
        decodeGo (.node none rf rl rr) (((c2 :: cs).map codeOf).flatten)
          (.node none rf rl rr) (acc ++ [c]) := by
      rw [hflat, decodeGo]
    rw [List.map_cons, List.flatten_cons, hflat, h1, hstep,
      decode_codes codeOf (c2 :: cs) (by simp)
        (fun x hx => hw x (List.mem_cons_of_mem _ hx)) (acc ++ [c])]
    simp

/-! ## Bit packing round trip -/

/-- Valuing 8 bits and re-expanding them is the identity (checked over
all 256 combinations). -/
theorem byteToBits_bitsVal : ∀ b1 b2 b3 b4 b5 b6 b7 b8 : Bool,
    byteToBits (bitsVal [b1, b2, b3, b4, b5, b6, b7, b8]) = [b1, b2, b3, b4, b5, b6, b7, b8] := by
  decide

theorem bytesToBits_cons (x : Nat) (l : List Nat) :
    bytesToBits (x :: l) = byteToBits x ++ bytesToBits l := by
  simp [bytesToBits]

theorem bits_roundtrip : ∀ bits : List Bool, bits.length % 8 = 0 →
    bytesToBits (bitsToBytes bits) = bits
  | [], _ => rfl
  | b1 :: b2 :: b3 :: b4 :: b5 :: b6 :: b7 :: b8 :: rest, h => by
    have hrest : rest.length % 8 = 0 := by
      simp only [List.length_cons] at h
      omega
    rw [bitsToBytes, bytesToBits_cons, byteToBits_bitsVal, bits_roundtrip rest hrest]
    simp
  | [b1], h => by simp at h
  | [b1, b2], h => by simp at h
  | [b1, b2, b3], h => by simp at h
  | [b1, b2, b3, b4], h => by simp at h
  | [b1, b2, b3, b4, b5], h => by simp at h
  | [b1, b2, b3, b4, b5, b6], h => by simp at h
  | [b1, b2, b3, b4, b5, b6, b7], h => by simp at h

/-- Stripping the recorded (nonzero) padding recovers the encoded bits. -/
theorem pyTailSlice_append_replicate (E : List Bool) (pad : Nat) (hpad : pad ≠ 0) :
    pyTailSlice (E ++ List.replicate pad false) pad = E := by
  rw [pyTailSlice, if_neg hpad]
  rw [List.length_append, List.length_replicate]
  rw [show E.length + pad - pad = E.length from by omega]
  exact List.take_left' rfl

/-! ## The frequency table -/

theorem mem_firstOccs : ∀ (data : List Nat) (c : Nat), c ∈ firstOccs data ↔ c ∈ data := by
  intro data
  induction data with
  | nil => intro c; simp [firstOccs]
  | cons a rest ih =>
    intro c
    simp only [firstOccs, List.mem_cons, List.mem_filter]
    constructor
    · rintro (rfl | ⟨h, -⟩)
      · exact Or.inl rfl
      · exact Or.inr ((ih c).mp h)
    · rintro (rfl | h)
      · exact Or.inl rfl
      · by_cases hc : c = a
        · exact Or.inl hc
        · exact Or.inr ⟨(ih c).mpr h, by simpa using hc⟩

theorem freqTable_keys (data : List Nat) :
    (buildFrequencyTable data).map Prod.fst = firstOccs data := by
  rw [buildFrequencyTable, List.map_map]
  exact (List.map_congr_left fun c _ => rfl).trans (List.map_id _)

theorem freqTable_ne_nil {data : List Nat} (h : data ≠ []) :
    buildFrequencyTable data ≠ [] := by
  match data, h with
  | c :: rest, _ => simp [buildFrequencyTable, firstOccs]

/-! ## The master compress/decompress specification -/

theorem decodeData_cons {bits : List Bool} (h : bits ≠ []) (ch : Option Nat) (f : Nat)
    (l r : PyNode) :
    decodeData bits (.node ch f l r) = decodeGo (.node ch f l r) bits (.node ch f l r) [] := by
  match bits, h with
  | _ :: _, _ => rfl

/-- Everything `compress` guarantees on nonempty input, including that
the produced container decompresses back to the input. -/
theorem compress_decompress_spec (data : List Nat) (hne : data ≠ []) :
    ∃ cont encoded,
      compress data = .ok cont ∧
      encodeData data (buildCodes (buildHuffmanTree (buildFrequencyTable data))) = .ok encoded ∧
      cont.magic = HZIP_MAGIC ∧
      cont.padding = 8 - encoded.length % 8 ∧
      cont.treeData = serializeTree (buildHuffmanTree (buildFrequencyTable data)) ∧
      cont.payload = bitsToBytes (if 8 - encoded.length % 8 ≠ 8 then
        encoded ++ List.replicate (8 - encoded.length % 8) false else encoded) ∧
      decompress cont = .ok data := by
  have hft := freqTable_ne_nil hne
  obtain ⟨f, l, r, htree, hgl, hgr, hchars⟩ := buildHuffmanTree_spec _ hft
  have hcodes_eq : buildCodes (buildHuffmanTree (buildFrequencyTable data)) =
      dfsCodes (.node none f l r) [] := by rw [htree, buildCodes]
  have hkeys : ∀ c ∈ data,
      ∃ p, (buildCodes (buildHuffmanTree (buildFrequencyTable data))).lookup c = some p := by
    intro c hc
    apply lookup_isSome_of_mem_keys
    rw [hcodes_eq, dfs_keys]
    exact hchars.mem_iff.mpr (by rw [freqTable_keys]; exact (mem_firstOccs data c).mpr hc)
  have hencode := encode_ok data _ hkeys
  set codeOf : Nat → List Bool := fun c =>
    ((buildCodes (buildHuffmanTree (buildFrequencyTable data))).lookup c).getD [] with hcodeOf
  set E : List Bool := (data.map codeOf).flatten with hE
  have hmod : E.length % 8 < 8 := Nat.mod_lt _ (by omega)
  have hwalk : ∀ c ∈ data, WalksTo (.node none 0 (zeroFreq l) (zeroFreq r)) (codeOf c) c := by
    intro c hc
    obtain ⟨p, hp⟩ := hkeys c hc
    have hmem := lookup_mem hp
    rw [hcodes_eq, ← dfsCodes_zeroFreq] at hmem
    simp only [zeroFreq] at hmem
    have : codeOf c = p := by rw [hcodeOf]; simp [hp]
    rw [this]
    exact codes_walksTo (by rw [buildCodes]; exact hmem)
  have hcomp : compress data = .ok
      { magic := HZIP_MAGIC
        padding := 8 - E.length % 8
        treeData := serializeTree (buildHuffmanTree (buildFrequencyTable data))
        payload := bitsToBytes (if 8 - E.length % 8 ≠ 8 then
          E ++ List.replicate (8 - E.length % 8) false else E) } := by
    simp only [compress, if_neg hne, hencode]
  have hpadded_len : (if 8 - E.length % 8 ≠ 8 then
      E ++ List.replicate (8 - E.length % 8) false else E).length % 8 = 0 := by
    split
    · next hp =>
      rw [List.length_append, List.length_replicate]
      omega
    · next hp =>
      omega
  have hser : deserializeTree (serializeTree (buildHuffmanTree (buildFrequencyTable data))) =
      .node none 0 (zeroFreq l) (zeroFreq r) := by
    rw [htree, ser_roundtrip_root hgl hgr]
    rfl
  have hstrip : (if (8 - E.length % 8 : Nat) ≠ 8 then
      pyTailSlice (if 8 - E.length % 8 ≠ 8 then
        E ++ List.replicate (8 - E.length % 8) false else E) (8 - E.length % 8)
      else (if 8 - E.length % 8 ≠ 8 then
        E ++ List.replicate (8 - E.length % 8) false else E)) = E := by
    by_cases hp : (8 - E.length % 8 : Nat) = 8
    · rw [if_neg (by omega), if_neg (by omega)]
    · rw [if_pos hp, if_pos hp]
      exact pyTailSlice_append_replicate E _ (by omega)
  have hdecode : decodeData E (.node none 0 (zeroFreq l) (zeroFreq r)) = .ok data := by
    match data, hne with
    | c0 :: rest, _ =>
      have hw0 := hwalk c0 (by simp)
      have hne0 : codeOf c0 ≠ [] := hw0.ne_nil
      have hEne : E ≠ [] := by
        rw [hE, List.map_cons, List.flatten_cons]
        intro hcontra
        exact hne0 (List.append_eq_nil.mp hcontra).1
      rw [decodeData_cons hEne]
      rw [hE]
      rw [decode_codes codeOf (c0 :: rest) (by simp) hwalk []]
      simp
  refine ⟨_, E, hcomp, hencode, rfl, rfl, rfl, rfl, ?_⟩
  rw [decompress]
  rw [if_neg (by simp)]
  simp only
  rw [hser, bits_roundtrip _ hpadded_len, hstrip, hdecode]

/-! ## Claim theorems -/

/-- C1: Round-trip identity: for every byte sequence `b` for which
`compress` is defined (the code rejects empty input, so for every
nonempty `b`), decompressing the container produced by compressing `b`
yields exactly `b`. -/
theorem C1_roundtrip (data : List Nat) (hne : data ≠ []) :
    ∃ cont, compress data = .ok cont ∧ decompress cont = .ok data := by
  obtain ⟨cont, E, hcomp, -, -, -, -, -, hdec⟩ := compress_decompress_spec data hne
  exact ⟨cont, hcomp, hdec⟩

theorem C1_roundtrip_witness :
    ([97] : List Nat) ≠ [] ∧
      ∃ cont, compress [97] = .ok cont ∧ decompress cont = .ok [97] :=
  ⟨by decide, C1_roundtrip [97] (by decide)⟩

/-- C2 (counterexample): the claim that the padding count written by
`compress` always lies in [0,7] is false: on eight `'a'` bytes the
encoded bit-string has length 8, nothing is appended, and the recorded
padding count is 8. -/
theorem C2_counterexample : ¬ (∀ (data : List Nat) (cont : Container),
    compress data = .ok cont → cont.padding ≤ 7) := by
  intro h
  have h8 : (8 : Nat) ≤ 7 := h (List.replicate 8 97)
    { magic := HZIP_MAGIC
      padding := 8
      treeData := .sinternal (.sleaf 97) .snone
      payload := [0] } rfl
  omega

/-- C2 (amended): the padding count written into the container equals
`8 - len % 8` of the encoded bit-string, and so lies in [1,8]; when it
is at most 7 it equals the number of zero bits appended, and 8 (not 0)
is recorded when the encoded bit-string's length is already a multiple
of 8 and no padding was appended. -/
theorem C2_padding_amended (data : List Nat) (cont : Container)
    (hcomp : compress data = .ok cont) :
    ∃ encoded,
      encodeData data (buildCodes (buildHuffmanTree (buildFrequencyTable data))) = .ok encoded ∧
      cont.padding = 8 - encoded.length % 8 ∧
      1 ≤ cont.padding ∧ cont.padding ≤ 8 ∧
      (cont.padding ≤ 7 →
        cont.payload = bitsToBytes (encoded ++ List.replicate cont.padding false)) ∧
      (cont.padding = 8 → encoded.length % 8 = 0 ∧ cont.payload = bitsToBytes encoded) := by
  have hne : data ≠ [] := by
    intro h
    rw [h] at hcomp
    simp [compress] at hcomp
  obtain ⟨cont2, E, hcomp2, henc, hmag, hpad, htd, hpl, hdec⟩ :=
    compress_decompress_spec data hne
  have hc : cont = cont2 := by
    rw [hcomp] at hcomp2
    exact Except.ok.inj hcomp2
  subst hc
  have hmod : E.length % 8 < 8 := Nat.mod_lt _ (by omega)
  refine ⟨E, henc, hpad, by omega, by omega, ?_, ?_⟩
  · intro h7
    rw [hpl, if_pos (by omega), hpad]
  · intro h8
    rw [hpad] at h8
    refine ⟨by omega, ?_⟩
    rw [hpl, if_neg (by omega)]

theorem C2_padding_amended_witness :
    compress [97] = .ok
      { magic := HZIP_MAGIC
        padding := 7
        treeData := .sinternal (.sleaf 97) .snone
        payload := [0] } ∧
    ∃ encoded,
      encodeData [97] (buildCodes (buildHuffmanTree (buildFrequencyTable [97]))) = .ok encoded ∧
      (7 : Nat) = 8 - encoded.length % 8 ∧
      1 ≤ (7 : Nat) ∧ (7 : Nat) ≤ 8 ∧
      ((7 : Nat) ≤ 7 → ([0] : List Nat) = bitsToBytes (encoded ++ List.replicate 7 false)) ∧
      ((7 : Nat) = 8 → encoded.length % 8 = 0 ∧ ([0] : List Nat) = bitsToBytes encoded) :=
  ⟨rfl, C2_padding_amended [97] _ rfl⟩

/-- C3 (counterexample): the claim that a padding count of 0 is recorded
when the encoded bit-string's length is a multiple of 8 is false: on
eight `'a'` bytes the encoded length is 8 and the recorded count is 8,
not 0 (and no padding bits are appended at all). -/
theorem C3_counterexample : ¬ (∀ (data : List Nat) (cont : Container) (encoded : List Bool),
    compress data = .ok cont →
    encodeData data (buildCodes (buildHuffmanTree (buildFrequencyTable data))) = .ok encoded →
    encoded.length % 8 = 0 → cont.padding = 0) := by
  intro h
  have h8 : (8 : Nat) = 0 := h (List.replicate 8 97)
    { magic := HZIP_MAGIC
      padding := 8
      treeData := .sinternal (.sleaf 97) .snone
      payload := [0] }
    (List.replicate 8 false) rfl rfl (by decide)
  omega

/-- C3 (amended): when the encoded bit-string's length is an exact
multiple of 8, `compress` appends no padding bits at all and records a
padding count of 8; `decompress` then strips nothing, the payload holds
exactly the encoded bits, and the round trip still succeeds. -/
theorem C3_aligned_amended (data : List Nat) (cont : Container) (encoded : List Bool)
    (hcomp : compress data = .ok cont)
    (henc : encodeData data (buildCodes (buildHuffmanTree (buildFrequencyTable data))) = .ok encoded)
    (hlen : encoded.length % 8 = 0) :
    cont.padding = 8 ∧ cont.payload = bitsToBytes encoded ∧
      bytesToBits cont.payload = encoded ∧ decompress cont = .ok data := by
  have hne : data ≠ [] := by
    intro h
    rw [h] at hcomp
    simp [compress] at hcomp
  obtain ⟨cont2, E, hcomp2, henc2, hmag, hpad, htd, hpl, hdec⟩ :=
    compress_decompress_spec data hne
  have hc : cont = cont2 := by
    rw [hcomp] at hcomp2
    exact Except.ok.inj hcomp2
  subst hc
  have hE : E = encoded := by
    rw [henc] at henc2
    exact (Except.ok.inj henc2).symm
  subst hE
  have hpad8 : cont.padding = 8 := by omega
  refine ⟨hpad8, ?_, ?_, hdec⟩
  · rw [hpl, if_neg (by omega)]
  · rw [hpl, if_neg (by omega)]
    exact bits_roundtrip E hlen

theorem C3_aligned_amended_witness :
    compress (List.replicate 8 97) = .ok
      { magic := HZIP_MAGIC
        padding := 8
        treeData := .sinternal (.sleaf 97) .snone
        payload := [0] } ∧
    encodeData (List.replicate 8 97)
      (buildCodes (buildHuffmanTree (buildFrequencyTable (List.replicate 8 97)))) =
      .ok (List.replicate 8 false) ∧
    (List.replicate 8 false).length % 8 = 0 ∧
    ((8 : Nat) = 8 ∧ ([0] : List Nat) = bitsToBytes (List.replicate 8 false) ∧
      bytesToBits [0] = List.replicate 8 false ∧
      decompress
        { magic := HZIP_MAGIC
          padding := 8
          treeData := .sinternal (.sleaf 97) .snone
          payload := [0] } = .ok (List.replicate 8 97)) :=
  ⟨rfl, rfl, by decide, C3_aligned_amended (List.replicate 8 97) _ _ rfl rfl (by decide)⟩

/-- C4: for every nonempty frequency table, the code table produced by
building the Huffman tree and deriving codes is prefix-free: no byte
value's bit-string code is a prefix of another byte value's code. -/
theorem C4_prefixFree (ft : List (Nat × Nat)) (hft : ft ≠ []) :
    ∀ (c : Nat) (p : List Bool) (c2 : Nat) (p2 : List Bool),
      (c, p) ∈ buildCodes (buildHuffmanTree ft) →
      (c2, p2) ∈ buildCodes (buildHuffmanTree ft) →
      c ≠ c2 → ¬ p <+: p2 := by
  obtain ⟨f, l, r, htree, -, -, -⟩ := buildHuffmanTree_spec ft hft
  intro c p c2 p2 hm hm2 hcc hpre
  rw [htree, buildCodes] at hm hm2
  exact hcc (dfs_prefix_of _ [] c p c2 p2 hm hm2 hpre).1

theorem C4_prefixFree_witness :
    ([(97, 1), (98, 1)] : List (Nat × Nat)) ≠ [] ∧ ¬ ([false] : List Bool) <+: [true] :=
  ⟨by decide,
    C4_prefixFree [(97, 1), (98, 1)] (by decide) 97 [false] 98 [true]
      (by decide) (by decide) (by decide)⟩

/-- C5: for every tree `t` built by Huffman construction, deserializing
the serialization of `t` yields a tree with identical shape and leaf
byte values (equal to `t` with all node weights erased to 0); node
weights need not be preserved. -/
theorem C5_serialization (ft : List (Nat × Nat)) :
    deserializeTree (serializeTree (buildHuffmanTree ft)) = zeroFreq (buildHuffmanTree ft) := by
  rcases eq_or_ne ft [] with rfl | hft
  · rfl
  · obtain ⟨f, l, r, htree, hgl, hgr, -⟩ := buildHuffmanTree_spec ft hft
    rw [htree]
    exact ser_roundtrip_root hgl hgr

/-- C6: for every input consisting of one repeated byte value, tree
construction produces an internal root wrapping a single leaf, code
derivation assigns that byte the one-bit code `"0"` (never the empty
string), and the compressed container decompresses back to the original
input. -/
theorem C6_degenerate (c n : Nat) (hn : 1 ≤ n) :
    buildHuffmanTree (buildFrequencyTable (List.replicate n c)) =
      .node none n (.node (some c) n .null .null) .null ∧
    buildCodes (buildHuffmanTree (buildFrequencyTable (List.replicate n c))) = [(c, [false])] ∧
    ∃ cont, compress (List.replicate n c) = .ok cont ∧
      decompress cont = .ok (List.replicate n c) := by
  have hfo : ∀ m : Nat, 1 ≤ m → firstOccs (List.replicate m c) = [c] := by
    intro m
    induction m with
    | zero => omega
    | succ k ih =>
      intro _
      rw [List.replicate_succ, firstOccs]
      rcases Nat.eq_zero_or_pos k with rfl | hk
      · rfl
      · rw [ih hk]
        simp
  have hft : buildFrequencyTable (List.replicate n c) = [(c, n)] := by
    rw [buildFrequencyTable, hfo n hn]
    simp [List.count_replicate]
  have hne : List.replicate n c ≠ [] := by
    intro h
    have := congrArg List.length h
    simp at this
    omega
  refine ⟨by rw [hft]; rfl, by rw [hft]; rfl, ?_⟩
  obtain ⟨cont, E, hcomp, -, -, -, -, -, hdec⟩ :=
    compress_decompress_spec (List.replicate n c) hne
  exact ⟨cont, hcomp, hdec⟩

theorem C6_degenerate_witness :
    1 ≤ (3 : Nat) ∧
    (buildHuffmanTree (buildFrequencyTable (List.replicate 3 97)) =
      .node none 3 (.node (some 97) 3 .null .null) .null ∧
    buildCodes (buildHuffmanTree (buildFrequencyTable (List.replicate 3 97))) = [(97, [false])] ∧
    ∃ cont, compress (List.replicate 3 97) = .ok cont ∧
      decompress cont = .ok (List.replicate 3 97)) :=
  ⟨by decide, C6_degenerate 97 3 (by decide)⟩

/-- C7: for every buffer whose first 4 bytes differ from the fixed magic
tag `b'HZIP'`, `decompress` fails with the format-mismatch error,
attempting no decode and producing no output. -/
theorem C7_formatRejection (cont : Container) (h : cont.magic ≠ HZIP_MAGIC) :
    decompress cont = .error .formatMismatch := by
  rw [decompress, if_pos h]

theorem C7_formatRejection_witness :
    ({ magic := [0, 0, 0, 0], padding := 0, treeData := .snone, payload := [] } :
      Container).magic ≠ HZIP_MAGIC ∧
    decompress { magic := [0, 0, 0, 0], padding := 0, treeData := .snone, payload := [] } =
      .error .formatMismatch :=
  ⟨by decide, C7_formatRejection _ (by decide)⟩

/-- C8: on the input `b"aaaabbbc"` the constructed tree gives `'a'` the
shortest code and `'c'` the longest (codes `"0"`, `"11"`, `"10"`); the
encoded bit length before padding is
`4*len(code_a) + 3*len(code_b) + 1*len(code_c) = 12`; and decompressing
the produced container returns exactly `b"aaaabbbc"`. -/
theorem C8_concreteScenario :
    buildCodes (buildHuffmanTree (buildFrequencyTable [97, 97, 97, 97, 98, 98, 98, 99])) =
      [(97, [false]), (99, [true, false]), (98, [true, true])] ∧
    (∀ q ∈ buildCodes (buildHuffmanTree (buildFrequencyTable [97, 97, 97, 97, 98, 98, 98, 99])),
      ([false] : List Bool).length ≤ q.2.length ∧
      q.2.length ≤ ([true, false] : List Bool).length) ∧
    encodeData [97, 97, 97, 97, 98, 98, 98, 99]
      (buildCodes (buildHuffmanTree (buildFrequencyTable [97, 97, 97, 97, 98, 98, 98, 99]))) =
      .ok [false, false, false, false, true, true, true, true, true, true, true, false] ∧
    ([false, false, false, false, true, true, true, true, true, true, true, false] :
      List Bool).length =
      4 * ([false] : List Bool).length + 3 * ([true, true] : List Bool).length +
        1 * ([true, false] : List Bool).length ∧
    roundtrip [97, 97, 97, 97, 98, 98, 98, 99] = .ok [97, 97, 97, 97, 98, 98, 98, 99] :=
  ⟨rfl, by decide, rfl, by decide, rfl⟩

/-- C9: `compress` on zero-length input is explicitly rejected with the
empty-input failure, which is distinct from the format error, rather
than producing a container. -/
theorem C9_emptyInput :
    compress [] = .error .emptyInput ∧ HErr.emptyInput ≠ HErr.formatMismatch :=
  ⟨rfl, by decide⟩

/-- C10: implicit invariant of the written container: the padding byte
equals `8 - (encoded bit length mod 8)`, always lies in [1,8] and is
never 0; when it equals 8, `compress` appends no padding bits (the
payload packs exactly the encoded bits), and `decompress` strips
trailing bits only when the padding byte differs from 8, so the two
sides stay consistent for byte-aligned encodings. -/
theorem C10_paddingInvariant (data : List Nat) (cont : Container)
    (hcomp : compress data = .ok cont) :
    ∃ encoded,
      encodeData data (buildCodes (buildHuffmanTree (buildFrequencyTable data))) = .ok encoded ∧
      cont.padding = 8 - encoded.length % 8 ∧
      1 ≤ cont.padding ∧ cont.padding ≤ 8 ∧ cont.padding ≠ 0 ∧
      (cont.padding = 8 →
        cont.payload = bitsToBytes encoded ∧ bytesToBits cont.payload = encoded ∧
        decompress cont = .ok data) := by
  have hne : data ≠ [] := by
    intro h
    rw [h] at hcomp
    simp [compress] at hcomp
  obtain ⟨cont2, E, hcomp2, henc, hmag, hpad, htd, hpl, hdec⟩ :=
    compress_decompress_spec data hne
  have hc : cont = cont2 := by
    rw [hcomp] at hcomp2
    exact Except.ok.inj hcomp2
  subst hc
  have hmod : E.length % 8 < 8 := Nat.mod_lt _ (by omega)
  refine ⟨E, henc, hpad, by omega, by omega, by omega, ?_⟩
  intro h8
  rw [hpad] at h8
  have hpl8 : cont.payload = bitsToBytes E := by
    rw [hpl, if_neg (by omega)]
  exact ⟨hpl8, by rw [hpl8]; exact bits_roundtrip E (by omega), hdec⟩

theorem C10_paddingInvariant_witness :
    compress (List.replicate 8 97) = .ok
      { magic := HZIP_MAGIC
        padding := 8
        treeData := .sinternal (.sleaf 97) .snone
        payload := [0] } ∧
    ∃ encoded,
      encodeData (List.replicate 8 97)
        (buildCodes (buildHuffmanTree (buildFrequencyTable (List.replicate 8 97)))) =
        .ok encoded ∧
      (8 : Nat) = 8 - encoded.length % 8 ∧
      1 ≤ (8 : Nat) ∧ (8 : Nat) ≤ 8 ∧ (8 : Nat) ≠ 0 ∧
      ((8 : Nat) = 8 →
        ([0] : List Nat) = bitsToBytes encoded ∧ bytesToBits [0] = encoded ∧
        decompress
          { magic := HZIP_MAGIC
            padding := 8
            treeData := .sinternal (.sleaf 97) .snone
            payload := [0] } = .ok (List.replicate 8 97)) :=
  ⟨rfl, C10_paddingInvariant (List.replicate 8 97) _ rfl⟩

end Hzip
